import Mathlib

/-!
Shallow embedding of the shot-boundary detection and highlight selection core
of the automatic-video-summarization repository (src/distances.py,
src/shot_detection.py, src/keyframes.py).

Python floats are modelled as rationals (ℚ), Python ints as ℤ (indices as ℕ),
numpy arrays as lists, and raised exceptions as `Except.error`.  Python's
`sorted` is a stable sort and is modelled by `List.insertionSort` with the
corresponding total preorder.
-/

namespace AVS

/-- Decidable equality for `Except` results, used to evaluate the embedded
functions on concrete inputs. -/
instance instDecEqExcept {ε α : Type} [DecidableEq ε] [DecidableEq α] :
    DecidableEq (Except ε α) := fun a b =>
  match a, b with
  | .error e, .error f =>
    if h : e = f then .isTrue (by rw [h]) else
      .isFalse (fun hc => absurd (by injection hc) h)
  | .ok x, .ok y =>
    if h : x = y then .isTrue (by rw [h]) else
      .isFalse (fun hc => absurd (by injection hc) h)
  | .error _, .ok _ => .isFalse (fun hc => Except.noConfusion hc)
  | .ok _, .error _ => .isFalse (fun hc => Except.noConfusion hc)

/-- Embedding of Python `sorted(l)` for rationals (stable ascending sort). -/
def sortQ (l : List ℚ) : List ℚ := l.insertionSort (· ≤ ·)

/-- From src/distances.py, `chi_square_distance`: elementwise
`0.5 * sum((p-q)^2 / (p+q+1e-8))` over two same-shape histograms. -/
def chi_square_distance (p q : List ℚ) : ℚ :=
  (1/2) * ((p.zip q).map (fun pr => (pr.1 - pr.2)^2 / (pr.1 + pr.2 + 1/100000000))).sum

/-- From src/shot_detection.py, `ShotDetectionParams`. -/
structure ShotDetectionParams where
  smooth_win : ℤ
  threshold_percentile : ℚ
  min_shot_len_sec : ℚ
  min_gap_sec : ℚ
  min_shot_duration_sec : ℚ
deriving DecidableEq

/-- The dataclass defaults: `(7, 95.0, 1.0, 1.5, 2.0)`. -/
def defaultParams : ShotDetectionParams := ⟨7, 95, 1, 3/2, 2⟩

/-- Full discrete convolution `np.convolve(a, v)` (mode `"full"`):
entry `k` is `sum_j a[j] * v[k-j]`, output length `len(a)+len(v)-1`. -/
def convolve_full (a v : List ℚ) : List ℚ :=
  (List.range (a.length + v.length - 1)).map (fun k =>
    ((List.range a.length).map (fun j =>
      if j ≤ k then a.getD j 0 * v.getD (k - j) 0 else 0)).sum)

/-- `np.convolve(a, v, mode="same")`: the centered `max(len(a), len(v))`
entries of the full convolution, i.e. the full result shifted by
`(min(len(a), len(v)) - 1) / 2`. -/
def convolve_same (a v : List ℚ) : List ℚ :=
  (List.range (max a.length v.length)).map (fun i =>
    (convolve_full a v).getD (i + (min a.length v.length - 1) / 2) 0)

/-- From src/shot_detection.py, `moving_average`: copy for `win <= 1`, else
`np.convolve(x, ones(win)/win, mode="same")`; numpy raises `ValueError`
when the convolved array is empty. -/
def moving_average (x : List ℚ) (win : ℤ) : Except String (List ℚ) :=
  if win ≤ 1 then .ok x
  else if x.isEmpty then .error "ValueError: v cannot be empty"
  else .ok (convolve_same x (List.replicate win.toNat (1 / (win : ℚ))))

/-- `np.clip(v, lo, hi)` for scalars: `min(max(v, lo), hi)`. -/
def np_clip (v lo hi : ℚ) : ℚ := min (max v lo) hi

/-- `np.percentile(x, p)` with the default linear interpolation on the
sorted data: virtual index `h = (n-1)*p/100`, result
`a[floor h] + (h - floor h) * (a[floor h + 1] - a[floor h])`
(the upper index clamped to `n-1`). -/
def percentile_linear (x : List ℚ) (p : ℚ) : ℚ :=
  let a := sortQ x
  let n := a.length
  let h : ℚ := ((n : ℚ) - 1) * p / 100
  let lo : ℕ := (⌊h⌋).toNat
  let alo := a.getD lo 0
  let ahi := a.getD (min (lo + 1) (n - 1)) 0
  alo + (h - (lo : ℚ)) * (ahi - alo)

/-- `np.percentile` raises on an empty array. -/
def np_percentile (x : List ℚ) (p : ℚ) : Except String ℚ :=
  if x.isEmpty then .error "IndexError: cannot do a non-empty take from an empty axes"
  else .ok (percentile_linear x p)

/-- From src/shot_detection.py, `auto_threshold`: clip the percentile to
`[50.0, 99.9]` and take that percentile of the series. -/
def auto_threshold (x : List ℚ) (percentile : ℚ) : Except String ℚ :=
  np_percentile x (np_clip percentile 50 (999/10))

/-- From src/shot_detection.py, `find_local_maxima`: indices
`i in range(1, len(x)-1)` with `x[i] >= thr`, `x[i] > x[i-1]`,
`x[i] >= x[i+1]`. -/
def find_local_maxima (x : List ℚ) (thr : ℚ) : List ℕ :=
  (List.range x.length).filter (fun i =>
    decide (0 < i) && decide (i + 1 < x.length) && decide (thr ≤ x.getD i 0) &&
    decide (x.getD (i - 1) 0 < x.getD i 0) && decide (x.getD (i + 1) 0 ≤ x.getD i 0))

/-- The greedy accumulation loop of `non_max_suppression`: append a candidate
only if it is farther than `min_gap` from every already selected index. -/
def nms_loop (min_gap : ℤ) : List ℕ → List ℕ → List ℕ
  | selected, [] => selected
  | selected, i :: rest =>
    if selected.all (fun j => decide (min_gap < |(i : ℤ) - (j : ℤ)|)) then
      nms_loop min_gap (selected ++ [i]) rest
    else
      nms_loop min_gap selected rest

/-- From src/shot_detection.py, `non_max_suppression`: sort candidates by
score descending (stable), greedily select, then re-sort ascending.
The score array access `scores[i]` is modelled by a function on indices. -/
def non_max_suppression (indices : List ℕ) (scores : ℕ → ℚ) (min_gap : ℤ) : List ℕ :=
  if indices.isEmpty then []
  else
    let sorted_idx := indices.insertionSort (fun a b => scores b ≤ scores a)
    (nms_loop min_gap [] sorted_idx).insertionSort (· ≤ ·)

/-- The sweep loop of `merge_close_boundaries`: keep `b` only when it is at
least `min_gap_sec` after the last kept boundary. -/
def merge_loop (min_gap_sec : ℚ) : ℚ → List ℚ → List ℚ
  | _, [] => []
  | last, b :: rest =>
    if min_gap_sec ≤ b - last then b :: merge_loop min_gap_sec b rest
    else merge_loop min_gap_sec last rest

/-- From src/shot_detection.py, `merge_close_boundaries`. -/
def merge_close_boundaries (boundaries_sec : List ℚ) (min_gap_sec : ℚ) : List ℚ :=
  if boundaries_sec.length ≤ 1 then boundaries_sec
  else
    match sortQ boundaries_sec with
    | [] => []
    | x :: rest => x :: merge_loop min_gap_sec x rest

/-- The loop of `filter_short_shots` over `sorted_b[1:]`, carrying the last
kept boundary (`filtered[-1]`).  For a non-final candidate the next shot
duration is measured to the next input boundary; for the final candidate it
is measured to the video end, with the relaxed `0.5 *` factor fallback. -/
def filter_loop (dur min_dur : ℚ) : ℚ → List ℚ → List ℚ
  | _, [] => []
  | prev, [c] =>
    if min_dur ≤ c - prev ∧ min_dur ≤ dur - c then [c]
    else if min_dur ≤ c - prev ∧ min_dur * (1/2) ≤ dur - c then [c]
    else []
  | prev, c :: next :: rest =>
    if min_dur ≤ c - prev ∧ min_dur ≤ next - c then c :: filter_loop dur min_dur c (next :: rest)
    else filter_loop dur min_dur prev (next :: rest)

/-- From src/shot_detection.py, `filter_short_shots`. -/
def filter_short_shots (boundaries_sec : List ℚ) (video_duration_sec min_duration_sec : ℚ) :
    List ℚ :=
  if boundaries_sec.length ≤ 1 then boundaries_sec
  else
    match sortQ boundaries_sec with
    | [] => []
    | x :: rest => x :: filter_loop video_duration_sec min_duration_sec x rest

/-- `np.median`: middle element of the sorted data, or the average of the two
middle elements for even length. -/
def np_median (x : List ℚ) : ℚ :=
  let a := sortQ x
  let n := a.length
  if n % 2 = 1 then a.getD (n / 2) 0
  else (a.getD (n / 2 - 1) 0 + a.getD (n / 2) 0) / 2

/-- `np.diff`: consecutive differences `x[i+1] - x[i]`. -/
def np_diff (x : List ℚ) : List ℚ := (x.zip x.tail).map (fun pr => pr.2 - pr.1)

/-- Python `int(round(v))` on a float: round half to even, then truncate. -/
def round_half_even (x : ℚ) : ℤ :=
  let f := ⌊x⌋
  let r := x - (f : ℚ)
  if r < 1/2 then f
  else if 1/2 < r then f + 1
  else if f % 2 = 0 then f else f + 1

/-- The comprehension `[dist_times[i] for i in peaks]`, with Python's
`IndexError` on an out-of-range index. -/
def lookup_times (dist_times : List ℚ) : List ℕ → Except String (List ℚ)
  | [] => .ok []
  | i :: rest =>
    match dist_times[i]?, lookup_times dist_times rest with
    | some t, .ok ts => .ok (t :: ts)
    | none, _ => .error "IndexError: list index out of range"
    | some _, .error e => .error e

/-- The candidate-to-peak-times computation of `detect_shot_boundaries`
(the `candidates`, `dt`, `min_gap`, `peaks` locals and the
`[dist_times[i] for i in peaks]` comprehension): local maxima of the
smoothed series above the threshold, non-max suppression with the sample
gap `int(round(min_shot_len_sec / max(dt, 1e-6)))` where `dt` is the
median frame spacing (or `0.1` when at most 2 samples), then the lookup of
each peak's timestamp. -/
def detect_peak_times (dist_times smoothed : List ℚ) (params : ShotDetectionParams)
    (thr : ℚ) : Except String (List ℚ) :=
  lookup_times dist_times
    (non_max_suppression (find_local_maxima smoothed thr) (fun i => smoothed.getD i 0)
      (round_half_even (params.min_shot_len_sec /
        max (if 2 < dist_times.length then np_median (np_diff dist_times) else 1/10)
          (1/1000000))))

/-- The final post-processing step of `detect_shot_boundaries`: the
short-shot filter is applied only when a positive video duration was
supplied (`if video_duration_sec is not None and video_duration_sec > 0`). -/
def apply_duration_filter (merged : List ℚ) (video_duration_sec : Option ℚ) (m : ℚ) :
    List ℚ :=
  match video_duration_sec with
  | some d => if 0 < d then filter_short_shots merged d m else merged
  | none => merged

/-- From src/shot_detection.py, `detect_shot_boundaries`: smoothing,
auto threshold, peak detection (`detect_peak_times`),
`sorted(set([0.0] + peak_times))`, merge-close pass, and the short-shot
filter when a positive video duration is supplied.  Raised exceptions
propagate as `Except.error`. -/
def detect_shot_boundaries (dist_times : List ℚ) (distances : List ℚ)
    (params : ShotDetectionParams) (video_duration_sec : Option ℚ) :
    Except String (List ℚ × ℚ × List ℚ) :=
  if dist_times.length ≠ distances.length then
    .error "ValueError: dist_times and distances must have same length."
  else
    match moving_average distances params.smooth_win with
    | .error e => .error e
    | .ok smoothed =>
      match auto_threshold smoothed params.threshold_percentile with
      | .error e => .error e
      | .ok thr =>
        match detect_peak_times dist_times smoothed params thr with
        | .error e => .error e
        | .ok peak_times =>
          .ok (smoothed, thr,
            apply_duration_filter
              (merge_close_boundaries (sortQ (((0 : ℚ) :: peak_times).dedup))
                params.min_gap_sec)
              video_duration_sec params.min_shot_duration_sec)

/-- From src/keyframes.py, the `Shot` dataclass. -/
structure Shot where
  start_sec : ℚ
  end_sec : ℚ
deriving DecidableEq

instance : Inhabited Shot := ⟨⟨0, 0⟩⟩

/-- The loop of `build_shots` over the sorted boundary list: pair each
boundary with the next one (or the video duration for the last one) and
keep only shots with `end > start`. -/
def build_shots_aux (video_duration_sec : ℚ) : List ℚ → List Shot
  | [] => []
  | [x] => if x < video_duration_sec then [⟨x, video_duration_sec⟩] else []
  | x :: y :: rest =>
    (if x < y then [Shot.mk x y] else []) ++ build_shots_aux video_duration_sec (y :: rest)

/-- From src/keyframes.py, `build_shots`. -/
def build_shots (boundaries_sec : List ℚ) (video_duration_sec : ℚ) : List Shot :=
  build_shots_aux video_duration_sec (sortQ boundaries_sec)

/-- A highlight tuple `(start_sec, end_sec, score, shot_index)` from
`select_highlight_segments`. -/
structure HighlightSegment where
  start_sec : ℚ
  end_sec : ℚ
  score : ℚ
  shot_index : ℕ
deriving DecidableEq

instance : Inhabited HighlightSegment := ⟨⟨0, 0, 0, 0⟩⟩

/-- The numpy mask `(times >= lo) & (times < hi)` applied to the frame list:
the frames whose timestamp lies in `[lo, hi)`, in index order. -/
def frames_in {F : Type} (time : F → ℚ) (frames : List F) (lo hi : ℚ) : List F :=
  frames.filter (fun f => decide (lo ≤ time f) && decide (time f < hi))

/-- `np.mean` of a list of scores. -/
def mean_q (l : List ℚ) : ℚ := l.sum / (l.length : ℚ)

/-- The window scoring loop of `select_highlight_segments`: score each frame
against the previous frame of the window (`None` for the first). The frame
quality function `score_frame` (cv2 sharpness/motion, combined score) is
abstracted as `score2 prev frame`. -/
def chain_scores {F : Type} (score2 : Option F → F → ℚ) : Option F → List F → List ℚ
  | _, [] => []
  | prev, f :: rest => score2 prev f :: chain_scores score2 (some f) rest

/-- The sliding-window search of `select_highlight_segments`: for each
candidate start, take frames in `[ws, ws + segment_duration)`, average their
chained scores, and keep the strictly best `(start, end, score)`. -/
def best_window_loop {F : Type} (time : F → ℚ) (score2 : Option F → F → ℚ)
    (frames : List F) (segment_duration : ℚ) :
    ℚ × ℚ × ℚ → List ℚ → ℚ × ℚ × ℚ
  | best, [] => best
  | best, ws :: rest =>
    if (frames_in time frames ws (ws + segment_duration)).isEmpty then
      best_window_loop time score2 frames segment_duration best rest
    else if best.2.2 <
        mean_q (chain_scores score2 none (frames_in time frames ws (ws + segment_duration))) then
      best_window_loop time score2 frames segment_duration
        (ws, ws + segment_duration,
          mean_q (chain_scores score2 none (frames_in time frames ws (ws + segment_duration)))) rest
    else best_window_loop time score2 frames segment_duration best rest

/-- The candidate window starts of a shot: timestamps of the shot's frames
kept when `start + segment_duration <= shot.end_sec`. -/
def window_starts {F : Type} (time : F → ℚ) (frames : List F) (shot : Shot)
    (segment_duration : ℚ) : List ℚ :=
  ((frames_in time frames shot.start_sec shot.end_sec).map time).filter
    (fun t => decide (t + segment_duration ≤ shot.end_sec))

/-- The best window of a shot, searched from the initial candidate
`(start, start + segment_duration, 0.0)` over the candidate starts
(or the forced `[shot.start_sec]` when no start qualifies). -/
def shot_best_window {F : Type} (time : F → ℚ) (score2 : Option F → F → ℚ)
    (frames : List F) (segment_duration : ℚ) (shot : Shot) : ℚ × ℚ × ℚ :=
  best_window_loop time score2 frames segment_duration
    (shot.start_sec, shot.start_sec + segment_duration, 0)
    (if (window_starts time frames shot segment_duration).isEmpty then [shot.start_sec]
     else window_starts time frames shot segment_duration)

/-- The per-shot body of `select_highlight_segments`: whole shot when it is
no longer than `segment_duration`, a degenerate
`[start, start + segment_duration]` segment with score `0.5` when fewer
than 2 frames fall in the shot, otherwise the best sliding window. -/
def shot_segment {F : Type} (time : F → ℚ) (score2 : Option F → F → ℚ)
    (frames : List F) (segment_duration : ℚ) (idx : ℕ) (shot : Shot) : HighlightSegment :=
  if shot.end_sec - shot.start_sec ≤ segment_duration then
    HighlightSegment.mk shot.start_sec shot.end_sec
      (if (frames_in time frames shot.start_sec shot.end_sec).isEmpty then 1/2
       else mean_q ((frames_in time frames shot.start_sec shot.end_sec).map
         (fun f => score2 none f))) idx
  else if (frames_in time frames shot.start_sec shot.end_sec).length < 2 then
    HighlightSegment.mk shot.start_sec (shot.start_sec + segment_duration) (1/2) idx
  else
    HighlightSegment.mk (shot_best_window time score2 frames segment_duration shot).1
      (shot_best_window time score2 frames segment_duration shot).2.1
      (shot_best_window time score2 frames segment_duration shot).2.2 idx

/-- The loop of `select_highlight_segments` over shots, carrying the running
shot index. -/
def select_highlight_loop {F : Type} (time : F → ℚ) (score2 : Option F → F → ℚ)
    (frames : List F) (segment_duration : ℚ) : ℕ → List Shot → List HighlightSegment
  | _, [] => []
  | idx, shot :: rest =>
    shot_segment time score2 frames segment_duration idx shot ::
      select_highlight_loop time score2 frames segment_duration (idx + 1) rest

/-- From src/keyframes.py, `select_highlight_segments`, abstracted over the
frame type, the timestamp accessor and the cv2-based frame quality score. -/
def select_highlight_segments {F : Type} (time : F → ℚ) (score2 : Option F → F → ℚ)
    (shots : List Shot) (frames : List F) (segment_duration : ℚ) : List HighlightSegment :=
  select_highlight_loop time score2 frames segment_duration 0 shots

/-- Claim-side loop for `filter_short_shots`, following the spec text: keep a
candidate iff the preceding shot and the shot it starts both meet
`min_shot_duration_sec`; for the very last candidate the trailing shot need
only be at least half of `min_shot_duration_sec`. -/
def filter_claim_loop (dur min_dur : ℚ) : ℚ → List ℚ → List ℚ
  | _, [] => []
  | prev, [c] =>
    if min_dur ≤ c - prev ∧ min_dur * (1/2) ≤ dur - c then [c] else []
  | prev, c :: next :: rest =>
    if min_dur ≤ c - prev ∧ min_dur ≤ next - c then
      c :: filter_claim_loop dur min_dur c (next :: rest)
    else filter_claim_loop dur min_dur prev (next :: rest)

/-- Claim-side reformulation of `filter_short_shots` on an already sorted,
deduplicated boundary list: always keep the first boundary, then apply
the claim's keep rules. -/
def filter_short_shots_claim (boundaries_sec : List ℚ) (dur min_dur : ℚ) : List ℚ :=
  match boundaries_sec with
  | [] => []
  | x :: rest => x :: filter_claim_loop dur min_dur x rest

/-! ### Generic facts about the stable sort embedding -/

lemma sortQ_sorted (l : List ℚ) : (sortQ l).Sorted (· ≤ ·) :=
  List.sorted_insertionSort _ l

lemma sortQ_perm (l : List ℚ) : List.Perm (sortQ l) l :=
  List.perm_insertionSort _ l

lemma sortQ_eq_self {l : List ℚ} (h : l.Sorted (· ≤ ·)) : sortQ l = l :=
  h.insertionSort_eq

lemma mem_sortQ {l : List ℚ} {x : ℚ} : x ∈ sortQ l ↔ x ∈ l :=
  (sortQ_perm l).mem_iff

lemma sorted_lt_of_sorted_le_nodup {l : List ℚ} (hs : l.Sorted (· ≤ ·)) (hn : l.Nodup) :
    l.Sorted (· < ·) :=
  (List.Pairwise.and hs hn).imp (fun h => lt_of_le_of_ne h.1 h.2)

lemma head_eq_zero_of_sorted {l : List ℚ} (hs : l.Sorted (· ≤ ·)) (h0 : (0 : ℚ) ∈ l)
    (hnn : ∀ y ∈ l, 0 ≤ y) : l.head? = some 0 := by
  cases l with
  | nil => cases h0
  | cons a t =>
    rcases List.mem_cons.mp h0 with h | h
    · rw [← h]
      rfl
    · have h1 : a ≤ 0 := List.rel_of_sorted_cons hs 0 h
      have h2 : 0 ≤ a := hnn a (List.mem_cons_self a t)
      rw [le_antisymm h1 h2]
      rfl

/-! ### C8: chi-square distance -/

lemma chi_cons (a b : ℚ) (p q : List ℚ) :
    chi_square_distance (a :: p) (b :: q) =
      (1/2) * ((a - b)^2 / (a + b + 1/100000000)) + chi_square_distance p q := by
  simp only [chi_square_distance, List.zip_cons_cons, List.map_cons, List.sum_cons]
  ring

lemma chi_term_nonneg {a b : ℚ} (ha : 0 ≤ a) (hb : 0 ≤ b) :
    0 ≤ (a - b)^2 / (a + b + 1/100000000) :=
  div_nonneg (sq_nonneg _) (by linarith)

lemma chi_term_eq_zero_iff {a b : ℚ} (ha : 0 ≤ a) (hb : 0 ≤ b) :
    (a - b)^2 / (a + b + 1/100000000) = 0 ↔ a = b := by
  have hden : a + b + 1/100000000 > 0 := by linarith
  rw [div_eq_zero_iff]
  constructor
  · rintro (h | h)
    · have := pow_eq_zero_iff (n := 2) (by norm_num) |>.mp h
      linarith [sub_eq_zero.mp this]
    · exact absurd h (ne_of_gt hden)
  · intro h
    left
    rw [h, sub_self]
    ring

lemma chi_nonneg : ∀ (p q : List ℚ), (∀ x ∈ p, 0 ≤ x) → (∀ x ∈ q, 0 ≤ x) →
    0 ≤ chi_square_distance p q
  | [], _, _, _ => by simp [chi_square_distance]
  | _ :: _, [], _, _ => by simp [chi_square_distance]
  | a :: p, b :: q, hp, hq => by
    have hpq := chi_nonneg p q (fun x hx => hp x (List.mem_cons_of_mem a hx))
      (fun x hx => hq x (List.mem_cons_of_mem b hx))
    have ht := chi_term_nonneg (hp a (List.mem_cons_self a p)) (hq b (List.mem_cons_self b q))
    rw [chi_cons]
    linarith

lemma chi_symm : ∀ (p q : List ℚ), chi_square_distance p q = chi_square_distance q p
  | [], q => by cases q <;> simp [chi_square_distance]
  | _ :: _, [] => by simp [chi_square_distance]
  | a :: p, b :: q => by
    rw [chi_cons, chi_cons, chi_symm p q]
    have h1 : (a - b)^2 = (b - a)^2 := by ring
    have h2 : a + b = b + a := by ring
    rw [h1, h2]

lemma chi_eq_zero_iff : ∀ (p q : List ℚ), p.length = q.length →
    (∀ x ∈ p, 0 ≤ x) → (∀ x ∈ q, 0 ≤ x) →
    (chi_square_distance p q = 0 ↔ p = q)
  | [], [], _, _, _ => by simp [chi_square_distance]
  | [], _ :: _, h, _, _ => by simp at h
  | _ :: _, [], h, _, _ => by simp at h
  | a :: p, b :: q, hlen, hp, hq => by
    have ha := hp a (List.mem_cons_self a p)
    have hb := hq b (List.mem_cons_self b q)
    have hp' := fun x hx => hp x (List.mem_cons_of_mem a hx)
    have hq' := fun x hx => hq x (List.mem_cons_of_mem b hx)
    have hlen' : p.length = q.length := by simpa using hlen
    have ih := chi_eq_zero_iff p q hlen' hp' hq'
    have htn := chi_term_nonneg ha hb
    have hdn := chi_nonneg p q hp' hq'
    rw [chi_cons]
    constructor
    · intro h
      have ht : (a - b)^2 / (a + b + 1/100000000) = 0 := by linarith
      have hd : chi_square_distance p q = 0 := by linarith
      have := (chi_term_eq_zero_iff ha hb).mp ht
      rw [this, ih.mp hd]
    · intro h
      injection h with h1 h2
      rw [h1, ih.mpr h2, (chi_term_eq_zero_iff (h1 ▸ ha) hb).mpr rfl]
      ring

/-- C8: for same-shape non-negative vectors, `chi_square_distance` is
symmetric, non-negative, and zero exactly when the vectors are equal
(hence strictly positive for any differing pair). -/
theorem chi_square_symm_and_zero_iff (p q : List ℚ) (hlen : p.length = q.length)
    (hp : ∀ x ∈ p, 0 ≤ x) (hq : ∀ x ∈ q, 0 ≤ x) :
    chi_square_distance p q = chi_square_distance q p ∧
    0 ≤ chi_square_distance p q ∧
    (chi_square_distance p q = 0 ↔ p = q) :=
  ⟨chi_symm p q, chi_nonneg p q hp hq, chi_eq_zero_iff p q hlen hp hq⟩

/-- Witness for C8 at `p = [1, 0]`, `q = [1, 2]`. -/
theorem chi_square_symm_and_zero_iff_witness :
    ([1, 0] : List ℚ).length = ([1, 2] : List ℚ).length ∧
    (∀ x ∈ ([1, 0] : List ℚ), 0 ≤ x) ∧ (∀ x ∈ ([1, 2] : List ℚ), 0 ≤ x) ∧
    (chi_square_distance [1, 0] [1, 2] = chi_square_distance [1, 2] [1, 0] ∧
      0 ≤ chi_square_distance [1, 0] [1, 2] ∧
      (chi_square_distance [1, 0] [1, 2] = 0 ↔ ([1, 0] : List ℚ) = [1, 2])) :=
  ⟨by decide, by decide, by decide,
    chi_square_symm_and_zero_iff [1, 0] [1, 2] (by decide) (by decide) (by decide)⟩

/-! ### C4: filter_short_shots against the spec's keep rules -/

lemma filter_loop_eq_claim (dur min_dur : ℚ) (hm : 0 ≤ min_dur) :
    ∀ (prev : ℚ) (l : List ℚ),
      filter_loop dur min_dur prev l = filter_claim_loop dur min_dur prev l
  | _, [] => rfl
  | prev, [c] => by
    simp only [filter_loop, filter_claim_loop]
    by_cases h1 : min_dur ≤ c - prev ∧ min_dur ≤ dur - c
    · rw [if_pos h1, if_pos ⟨h1.1, by linarith [h1.2]⟩]
    · rw [if_neg h1]
  | prev, c :: next :: rest => by
    simp only [filter_loop, filter_claim_loop]
    by_cases h1 : min_dur ≤ c - prev ∧ min_dur ≤ next - c
    · rw [if_pos h1, if_pos h1, filter_loop_eq_claim dur min_dur hm c (next :: rest)]
    · rw [if_neg h1, if_neg h1, filter_loop_eq_claim dur min_dur hm prev (next :: rest)]

/-- C4: on a sorted, deduplicated boundary list starting at `0.0` and with a
non-negative minimum duration, `filter_short_shots` computes exactly the
spec's keep rules (keep the first boundary; keep a non-final candidate iff
the preceding and started shots both meet `min_shot_duration_sec`; keep the
final candidate iff the preceding shot meets it and the trailing shot
meets half of it), and in particular it always keeps the first boundary. -/
theorem filter_short_shots_matches_claim (bs : List ℚ) (dur min_dur : ℚ)
    (hs : bs.Sorted (· < ·)) (h0 : bs.head? = some 0) (hm : 0 ≤ min_dur) :
    filter_short_shots bs dur min_dur = filter_short_shots_claim bs dur min_dur ∧
    (filter_short_shots bs dur min_dur).head? = bs.head? := by
  cases bs with
  | nil => simp at h0
  | cons x rest =>
    cases rest with
    | nil =>
      constructor
      · simp [filter_short_shots, filter_short_shots_claim, filter_claim_loop]
      · simp [filter_short_shots]
    | cons y rest' =>
      have hle : (x :: y :: rest').Sorted (· ≤ ·) := hs.imp le_of_lt
      have hsort : sortQ (x :: y :: rest') = x :: y :: rest' := sortQ_eq_self hle
      have hlen : ¬ (x :: y :: rest').length ≤ 1 := by simp
      constructor
      · simp only [filter_short_shots, if_neg hlen, hsort, filter_short_shots_claim]
        rw [filter_loop_eq_claim dur min_dur hm x (y :: rest')]
      · simp only [filter_short_shots, if_neg hlen, hsort]
        rfl

/-- Witness for C4 at `bs = [0, 3, 4]`, `dur = 10`, `min_dur = 2`. -/
theorem filter_short_shots_matches_claim_witness :
    ([0, 3, 4] : List ℚ).Sorted (· < ·) ∧ ([0, 3, 4] : List ℚ).head? = some 0 ∧
    (0 : ℚ) ≤ 2 ∧
    (filter_short_shots [0, 3, 4] 10 2 = filter_short_shots_claim [0, 3, 4] 10 2 ∧
      (filter_short_shots [0, 3, 4] 10 2).head? = ([0, 3, 4] : List ℚ).head?) :=
  ⟨by decide, by decide, by decide,
    filter_short_shots_matches_claim [0, 3, 4] 10 2 (by decide) (by decide) (by decide)⟩

/-! ### C5: non-max suppression -/

lemma nms_loop_mem (g : ℤ) :
    ∀ (l acc : List ℕ) (x : ℕ), x ∈ nms_loop g acc l → x ∈ acc ∨ x ∈ l
  | [], _, _, h => Or.inl h
  | i :: rest, acc, x, h => by
    unfold nms_loop at h
    split at h
    · rcases nms_loop_mem g rest (acc ++ [i]) x h with h' | h'
      · rcases List.mem_append.mp h' with h'' | h''
        · exact Or.inl h''
        · exact Or.inr (List.mem_cons.mpr (Or.inl (List.mem_singleton.mp h'')))
      · exact Or.inr (List.mem_cons_of_mem i h')
    · rcases nms_loop_mem g rest acc x h with h' | h'
      · exact Or.inl h'
      · exact Or.inr (List.mem_cons_of_mem i h')

lemma nms_loop_acc_subset (g : ℤ) :
    ∀ (l acc : List ℕ) (x : ℕ), x ∈ acc → x ∈ nms_loop g acc l
  | [], _, _, h => h
  | i :: rest, acc, x, h => by
    unfold nms_loop
    split
    · exact nms_loop_acc_subset g rest (acc ++ [i]) x (List.mem_append_left _ h)
    · exact nms_loop_acc_subset g rest acc x h

lemma nms_loop_pairwise (g : ℤ) :
    ∀ (l acc : List ℕ), acc.Pairwise (fun i j : ℕ => g < |(i : ℤ) - (j : ℤ)|) →
      (nms_loop g acc l).Pairwise (fun i j : ℕ => g < |(i : ℤ) - (j : ℤ)|)
  | [], _, h => h
  | i :: rest, acc, h => by
    unfold nms_loop
    split
    · rename_i hall
      apply nms_loop_pairwise g rest
      rw [List.pairwise_append]
      refine ⟨h, List.pairwise_singleton _ _, ?_⟩
      intro a ha b hb
      rw [List.mem_singleton.mp hb]
      have := (List.all_eq_true.mp hall) a ha
      have hlt := of_decide_eq_true this
      rwa [abs_sub_comm] at hlt
    · exact nms_loop_pairwise g rest acc h

/-- C5: `non_max_suppression` returns a subset of the candidates, sorted
ascending, in which any two distinct selected indices are farther than
`min_gap` apart, and (for a non-empty candidate list) some selected index
carries the maximal score. -/
theorem non_max_suppression_spec (indices : List ℕ) (scores : ℕ → ℚ) (min_gap : ℤ)
    (hg : 0 ≤ min_gap) :
    (∀ i ∈ non_max_suppression indices scores min_gap, i ∈ indices) ∧
    (non_max_suppression indices scores min_gap).Sorted (· ≤ ·) ∧
    (∀ i ∈ non_max_suppression indices scores min_gap,
      ∀ j ∈ non_max_suppression indices scores min_gap,
        i ≠ j → min_gap < |(i : ℤ) - (j : ℤ)|) ∧
    (indices ≠ [] → ∃ m ∈ non_max_suppression indices scores min_gap,
      ∀ j ∈ indices, scores j ≤ scores m) := by
  by_cases hind : indices.isEmpty
  · have : indices = [] := by
      cases indices
      · rfl
      · simp [List.isEmpty] at hind
    subst this
    simp [non_max_suppression]
  · haveI : IsTotal ℕ (fun a b => scores b ≤ scores a) :=
      ⟨fun a b => (le_total (scores b) (scores a))⟩
    haveI : IsTrans ℕ (fun a b => scores b ≤ scores a) :=
      ⟨fun _ _ _ h1 h2 => le_trans h2 h1⟩
    have hout : non_max_suppression indices scores min_gap =
        (nms_loop min_gap []
          (indices.insertionSort (fun a b => scores b ≤ scores a))).insertionSort (· ≤ ·) := by
      simp only [non_max_suppression, if_neg hind]
    rw [hout]
    have hperm : List.Perm (indices.insertionSort (fun a b => scores b ≤ scores a)) indices :=
      List.perm_insertionSort _ _
    refine ⟨?_, ?_, ?_, ?_⟩
    · intro i hi
      have hi' := (List.mem_insertionSort _).mp hi
      rcases nms_loop_mem min_gap _ [] i hi' with h | h
      · cases h
      · exact hperm.mem_iff.mp h
    · exact List.sorted_insertionSort _ _
    · intro i hi j hj hij
      have hp := nms_loop_pairwise min_gap
        (indices.insertionSort (fun a b => scores b ≤ scores a)) [] List.Pairwise.nil
      have hsym : Symmetric (fun i j : ℕ => min_gap < |(i : ℤ) - (j : ℤ)|) := by
        intro a b h
        rwa [abs_sub_comm] at h
      exact hp.forall hsym ((List.mem_insertionSort _).mp hi)
        ((List.mem_insertionSort _).mp hj) hij
    · intro hne
      have hne' : indices.insertionSort (fun a b => scores b ≤ scores a) ≠ [] := by
        intro h
        apply hne
        have := hperm.length_eq
        rw [h, List.length_nil] at this
        exact List.eq_nil_of_length_eq_zero this.symm
      obtain ⟨a, t, hat⟩ := List.exists_cons_of_ne_nil hne'
      have hsorted : (indices.insertionSort (fun a b => scores b ≤ scores a)).Sorted
          (fun a b => scores b ≤ scores a) := List.sorted_insertionSort _ _
      refine ⟨a, ?_, ?_⟩
      · apply (List.mem_insertionSort _).mpr
        rw [hat]
        unfold nms_loop
        rw [if_pos (by simp)]
        exact nms_loop_acc_subset min_gap t [a] a (List.mem_singleton_self a)
      · intro j hj
        have hj' : j ∈ indices.insertionSort (fun a b => scores b ≤ scores a) :=
          hperm.mem_iff.mpr hj
        rw [hat] at hj' hsorted
        rcases List.mem_cons.mp hj' with h | h
        · rw [h]
        · exact List.rel_of_sorted_cons hsorted j h

/-- Witness for C5 at `indices = [3, 10]`, `scores i = i`, `min_gap = 2`. -/
theorem non_max_suppression_spec_witness :
    (0 : ℤ) ≤ 2 ∧
    ((∀ i ∈ non_max_suppression [3, 10] (fun i => (i : ℚ)) 2, i ∈ ([3, 10] : List ℕ)) ∧
      (non_max_suppression [3, 10] (fun i => (i : ℚ)) 2).Sorted (· ≤ ·) ∧
      (∀ i ∈ non_max_suppression [3, 10] (fun i => (i : ℚ)) 2,
        ∀ j ∈ non_max_suppression [3, 10] (fun i => (i : ℚ)) 2,
          i ≠ j → (2 : ℤ) < |(i : ℤ) - (j : ℤ)|) ∧
      (([3, 10] : List ℕ) ≠ [] → ∃ m ∈ non_max_suppression [3, 10] (fun i => (i : ℚ)) 2,
        ∀ j ∈ ([3, 10] : List ℕ), (j : ℚ) ≤ (m : ℚ))) :=
  ⟨by decide, non_max_suppression_spec [3, 10] (fun i => (i : ℚ)) 2 (by decide)⟩

/-! ### C6: build_shots tiles the video exactly -/

lemma build_shots_aux_spec (dur : ℚ) :
    ∀ (l : List ℚ), l ≠ [] → l.Sorted (· ≤ ·) → (∀ x ∈ l, x < dur) →
      build_shots_aux dur l ≠ [] ∧
      (build_shots_aux dur l).head?.map Shot.start_sec = l.head? ∧
      (build_shots_aux dur l).getLast?.map Shot.end_sec = some dur ∧
      (build_shots_aux dur l).Chain' (fun a b => a.end_sec = b.start_sec) ∧
      (∀ sh ∈ build_shots_aux dur l, sh.start_sec < sh.end_sec)
  | [], h, _, _ => absurd rfl h
  | [x], _, _, hlt => by
    have hx : x < dur := hlt x (List.mem_singleton_self x)
    refine ⟨by simp [build_shots_aux, hx], ?_, ?_, ?_, ?_⟩
    · simp [build_shots_aux, hx]
    · simp [build_shots_aux, hx]
    · simp [build_shots_aux, hx]
    · intro sh hsh
      simp only [build_shots_aux, if_pos hx, List.mem_singleton] at hsh
      rw [hsh]
      exact hx
  | x :: y :: rest, _, hs, hlt => by
    have hs' : (y :: rest).Sorted (· ≤ ·) := hs.of_cons
    have hlt' : ∀ z ∈ y :: rest, z < dur := fun z hz => hlt z (List.mem_cons_of_mem x hz)
    obtain ⟨ih1, ih2, ih3, ih4, ih5⟩ :=
      build_shots_aux_spec dur (y :: rest) (List.cons_ne_nil y rest) hs' hlt'
    by_cases hxy : x < y
    · have hres : build_shots_aux dur (x :: y :: rest) =
          Shot.mk x y :: build_shots_aux dur (y :: rest) := by
        rw [build_shots_aux, if_pos hxy, List.singleton_append]
      obtain ⟨a, t, ha⟩ := List.exists_cons_of_ne_nil ih1
      have hhead : a.start_sec = y := by
        rw [ha] at ih2
        simpa using ih2
      refine ⟨by rw [hres]; exact List.cons_ne_nil _ _, ?_, ?_, ?_, ?_⟩
      · rw [hres]
        rfl
      · rw [hres, ha, List.getLast?_cons_cons, ← ha]
        exact ih3
      · rw [hres, ha, List.chain'_cons]
        constructor
        · exact hhead.symm
        · rw [← ha]
          exact ih4
      · intro sh hsh
        rw [hres] at hsh
        rcases List.mem_cons.mp hsh with h | h
        · rw [h]
          exact hxy
        · exact ih5 sh h
    · have hxy' : x = y :=
        le_antisymm ((List.sorted_cons.mp hs).1 y (List.mem_cons_self y rest)) (not_lt.mp hxy)
      have hres : build_shots_aux dur (x :: y :: rest) = build_shots_aux dur (y :: rest) := by
        rw [build_shots_aux, if_neg hxy]
        rfl
      refine ⟨by rw [hres]; exact ih1, ?_, by rw [hres]; exact ih3,
        by rw [hres]; exact ih4, by rw [hres]; exact ih5⟩
      rw [hres, ih2, hxy']
      rfl

/-- C6: when the boundary list contains `0.0` and all its values lie in
`[0, video_duration)`, `build_shots` exactly tiles `[0, video_duration]`:
nonempty output, first shot starts at `0.0`, consecutive shots share
endpoints, the last shot ends at the video duration, and every shot has
positive duration. -/
theorem build_shots_exact_tiling (bs : List ℚ) (dur : ℚ) (h0 : (0 : ℚ) ∈ bs)
    (hb : ∀ x ∈ bs, 0 ≤ x ∧ x < dur) :
    build_shots bs dur ≠ [] ∧
    (build_shots bs dur).head?.map Shot.start_sec = some 0 ∧
    (build_shots bs dur).Chain' (fun a b => a.end_sec = b.start_sec) ∧
    (build_shots bs dur).getLast?.map Shot.end_sec = some dur ∧
    (∀ sh ∈ build_shots bs dur, sh.start_sec < sh.end_sec) := by
  have h0' : (0 : ℚ) ∈ sortQ bs := mem_sortQ.mpr h0
  have hne : sortQ bs ≠ [] := List.ne_nil_of_mem h0'
  have hsorted := sortQ_sorted bs
  have hlt : ∀ x ∈ sortQ bs, x < dur := fun x hx => (hb x (mem_sortQ.mp hx)).2
  have hnn : ∀ x ∈ sortQ bs, 0 ≤ x := fun x hx => (hb x (mem_sortQ.mp hx)).1
  obtain ⟨a1, a2, a3, a4, a5⟩ := build_shots_aux_spec dur (sortQ bs) hne hsorted hlt
  have hhead : (sortQ bs).head? = some 0 := head_eq_zero_of_sorted hsorted h0' hnn
  exact ⟨a1, by rw [build_shots, a2, hhead], a4, a3, a5⟩

/-- Witness for C6 at `bs = [0, 2, 1]`, `dur = 3`. -/
theorem build_shots_exact_tiling_witness :
    (0 : ℚ) ∈ ([0, 2, 1] : List ℚ) ∧
    (∀ x ∈ ([0, 2, 1] : List ℚ), 0 ≤ x ∧ x < 3) ∧
    (build_shots [0, 2, 1] 3 ≠ [] ∧
      (build_shots [0, 2, 1] 3).head?.map Shot.start_sec = some 0 ∧
      (build_shots [0, 2, 1] 3).Chain' (fun a b => a.end_sec = b.start_sec) ∧
      (build_shots [0, 2, 1] 3).getLast?.map Shot.end_sec = some 3 ∧
      (∀ sh ∈ build_shots [0, 2, 1] 3, sh.start_sec < sh.end_sec)) :=
  ⟨by decide, by decide, build_shots_exact_tiling [0, 2, 1] 3 (by decide) (by decide)⟩

/-! ### C7: highlight segments stay inside their parent shot -/

lemma best_window_loop_inv {F : Type} (time : F → ℚ) (score2 : Option F → F → ℚ)
    (frames : List F) (segdur lo hi : ℚ) :
    ∀ (ws : List ℚ) (best : ℚ × ℚ × ℚ),
      lo ≤ best.1 → best.2.1 = best.1 + segdur → best.2.1 ≤ hi →
      (∀ w ∈ ws, lo ≤ w ∧ w + segdur ≤ hi) →
      lo ≤ (best_window_loop time score2 frames segdur best ws).1 ∧
      (best_window_loop time score2 frames segdur best ws).2.1 =
        (best_window_loop time score2 frames segdur best ws).1 + segdur ∧
      (best_window_loop time score2 frames segdur best ws).2.1 ≤ hi
  | [], _, h1, h2, h3, _ => ⟨h1, h2, h3⟩
  | w :: rest, best, h1, h2, h3, hws => by
    have hw := hws w (List.mem_cons_self w rest)
    have hws' : ∀ v ∈ rest, lo ≤ v ∧ v + segdur ≤ hi :=
      fun v hv => hws v (List.mem_cons_of_mem w hv)
    unfold best_window_loop
    split
    · exact best_window_loop_inv time score2 frames segdur lo hi rest best h1 h2 h3 hws'
    · split
      · exact best_window_loop_inv time score2 frames segdur lo hi rest
          (w, w + segdur, mean_q (chain_scores score2 none
            (frames_in time frames w (w + segdur)))) hw.1 rfl hw.2 hws'
      · exact best_window_loop_inv time score2 frames segdur lo hi rest best h1 h2 h3 hws'

lemma window_starts_bounds {F : Type} (time : F → ℚ) (frames : List F) (shot : Shot)
    (segdur : ℚ) {w : ℚ} (hw : w ∈ window_starts time frames shot segdur) :
    shot.start_sec ≤ w ∧ w + segdur ≤ shot.end_sec := by
  simp only [window_starts, frames_in, List.mem_filter, List.mem_map,
    Bool.and_eq_true, decide_eq_true_eq] at hw
  obtain ⟨⟨f, hf, hfw⟩, hle⟩ := hw
  exact ⟨hfw ▸ hf.2.1, hle⟩

lemma shot_segment_spec {F : Type} (time : F → ℚ) (score2 : Option F → F → ℚ)
    (frames : List F) (segdur : ℚ) (idx : ℕ) (shot : Shot) :
    (shot_segment time score2 frames segdur idx shot).shot_index = idx ∧
    shot.start_sec ≤ (shot_segment time score2 frames segdur idx shot).start_sec ∧
    (shot_segment time score2 frames segdur idx shot).end_sec ≤ shot.end_sec ∧
    (shot_segment time score2 frames segdur idx shot).end_sec -
        (shot_segment time score2 frames segdur idx shot).start_sec ≤
      shot.end_sec - shot.start_sec := by
  by_cases h1 : shot.end_sec - shot.start_sec ≤ segdur
  · have hseg : shot_segment time score2 frames segdur idx shot =
        HighlightSegment.mk shot.start_sec shot.end_sec
          (if (frames_in time frames shot.start_sec shot.end_sec).isEmpty then 1/2
           else mean_q ((frames_in time frames shot.start_sec shot.end_sec).map
             (fun f => score2 none f))) idx := by
      rw [shot_segment, if_pos h1]
    rw [hseg]
    exact ⟨rfl, le_refl _, le_refl _, le_refl _⟩
  · have hlt : segdur < shot.end_sec - shot.start_sec := not_le.mp h1
    by_cases h2 : (frames_in time frames shot.start_sec shot.end_sec).length < 2
    · have hseg : shot_segment time score2 frames segdur idx shot =
          HighlightSegment.mk shot.start_sec (shot.start_sec + segdur) (1/2) idx := by
        rw [shot_segment, if_neg h1, if_pos h2]
      rw [hseg]
      refine ⟨rfl, le_refl _, ?_, ?_⟩
      · show shot.start_sec + segdur ≤ shot.end_sec
        linarith
      · show shot.start_sec + segdur - shot.start_sec ≤ shot.end_sec - shot.start_sec
        linarith
    · have hseg : shot_segment time score2 frames segdur idx shot =
          HighlightSegment.mk (shot_best_window time score2 frames segdur shot).1
            (shot_best_window time score2 frames segdur shot).2.1
            (shot_best_window time score2 frames segdur shot).2.2 idx := by
        rw [shot_segment, if_neg h1, if_neg h2]
      have hinv : shot.start_sec ≤ (shot_best_window time score2 frames segdur shot).1 ∧
          (shot_best_window time score2 frames segdur shot).2.1 =
            (shot_best_window time score2 frames segdur shot).1 + segdur ∧
          (shot_best_window time score2 frames segdur shot).2.1 ≤ shot.end_sec := by
        unfold shot_best_window
        refine best_window_loop_inv time score2 frames segdur shot.start_sec shot.end_sec
          _ _ (le_refl _) rfl (by dsimp only; linarith) ?_
        intro w hw
        split at hw
        · rw [List.mem_singleton.mp hw]
          exact ⟨le_refl _, by linarith⟩
        · exact window_starts_bounds time frames shot segdur hw
      obtain ⟨b1, b2, b3⟩ := hinv
      rw [hseg]
      refine ⟨rfl, b1, b3, ?_⟩
      show (shot_best_window time score2 frames segdur shot).2.1 -
          (shot_best_window time score2 frames segdur shot).1 ≤
        shot.end_sec - shot.start_sec
      rw [b2]
      linarith

lemma select_highlight_loop_length {F : Type} (time : F → ℚ) (score2 : Option F → F → ℚ)
    (frames : List F) (segdur : ℚ) :
    ∀ (idx : ℕ) (shots : List Shot),
      (select_highlight_loop time score2 frames segdur idx shots).length = shots.length
  | _, [] => rfl
  | idx, _ :: rest => by
    unfold select_highlight_loop
    rw [List.length_cons, List.length_cons,
      select_highlight_loop_length time score2 frames segdur (idx + 1) rest]

lemma select_highlight_loop_getD {F : Type} (time : F → ℚ) (score2 : Option F → F → ℚ)
    (frames : List F) (segdur : ℚ) :
    ∀ (shots : List Shot) (idx k : ℕ), k < shots.length →
      (select_highlight_loop time score2 frames segdur idx shots).getD k default =
        shot_segment time score2 frames segdur (idx + k) (shots.getD k default)
  | [], _, k, hk => absurd hk (by simp)
  | shot :: rest, idx, 0, _ => by
    unfold select_highlight_loop
    rfl
  | shot :: rest, idx, k + 1, hk => by
    unfold select_highlight_loop
    have hk' : k < rest.length := by simpa using hk
    have := select_highlight_loop_getD time score2 frames segdur rest (idx + 1) k hk'
    simpa [Nat.add_assoc, Nat.add_comm 1 k] using this

/-- C7: `select_highlight_segments` returns exactly one segment per shot,
the k-th carrying shot index k, and each segment is confined to its parent
shot: it starts no earlier, ends no later, and is never longer than the
shot — for every timestamp assignment and every frame quality score. -/
theorem select_highlight_segments_confined {F : Type} (time : F → ℚ)
    (score2 : Option F → F → ℚ) (shots : List Shot) (frames : List F) (segdur : ℚ) :
    (select_highlight_segments time score2 shots frames segdur).length = shots.length ∧
    ∀ k, k < shots.length →
      ((select_highlight_segments time score2 shots frames segdur).getD k default).shot_index
          = k ∧
      (shots.getD k default).start_sec ≤
        ((select_highlight_segments time score2 shots frames segdur).getD k default).start_sec ∧
      ((select_highlight_segments time score2 shots frames segdur).getD k default).end_sec ≤
        (shots.getD k default).end_sec ∧
      ((select_highlight_segments time score2 shots frames segdur).getD k default).end_sec -
          ((select_highlight_segments time score2 shots frames segdur).getD k default).start_sec
        ≤ (shots.getD k default).end_sec - (shots.getD k default).start_sec := by
  constructor
  · exact select_highlight_loop_length time score2 frames segdur 0 shots
  · intro k hk
    have hg := select_highlight_loop_getD time score2 frames segdur shots 0 k hk
    rw [select_highlight_segments, hg, Nat.zero_add]
    exact shot_segment_spec time score2 frames segdur k (shots.getD k default)

/-! ### C9: auto_threshold stays within the series range -/

lemma getD_eq_getElem_q {l : List ℚ} {i : ℕ} (h : i < l.length) : l.getD i 0 = l[i] := by
  rw [List.getD_eq_getElem?_getD, List.getElem?_eq_getElem h, Option.getD_some]

lemma getD_mem_of_lt {l : List ℚ} {i : ℕ} (h : i < l.length) : l.getD i 0 ∈ l := by
  rw [getD_eq_getElem_q h]
  exact List.getElem_mem h

lemma sorted_getD_mono {l : List ℚ} (hs : l.Sorted (· ≤ ·)) {i j : ℕ} (hij : i ≤ j)
    (hj : j < l.length) : l.getD i 0 ≤ l.getD j 0 := by
  have hi : i < l.length := lt_of_le_of_lt hij hj
  rw [getD_eq_getElem_q hi, getD_eq_getElem_q hj]
  rcases eq_or_lt_of_le hij with h | h
  · subst h
    exact le_refl _
  · exact List.pairwise_iff_get.mp hs ⟨i, hi⟩ ⟨j, hj⟩ h

/-- C9: for a non-empty series, `auto_threshold` returns the percentile of
the series at the requested percentile clipped into `[50.0, 99.9]`, and the
returned threshold always lies within `[min(series), max(series)]`. -/
theorem auto_threshold_within_range (x : List ℚ) (p : ℚ) (hx : x ≠ []) :
    auto_threshold x p = .ok (percentile_linear x (np_clip p 50 (999/10))) ∧
    (∃ a ∈ x, a ≤ percentile_linear x (np_clip p 50 (999/10))) ∧
    (∃ b ∈ x, percentile_linear x (np_clip p 50 (999/10)) ≤ b) := by
  have hxe : x.isEmpty = false := by
    cases x
    · exact absurd rfl hx
    · rfl
  refine ⟨by rw [auto_threshold, np_percentile, hxe]; rfl, ?_⟩
  have hn : 1 ≤ (sortQ x).length := by
    rw [(sortQ_perm x).length_eq]
    cases x
    · exact absurd rfl hx
    · simp
  have hp50 : 50 ≤ np_clip p 50 (999/10) := by
    rw [np_clip]
    exact le_min (le_max_right p 50) (by norm_num)
  have hp999 : np_clip p 50 (999/10) ≤ 999/10 := min_le_right _ _
  have hsorted := sortQ_sorted x
  have hn1 : (1 : ℚ) ≤ ((sortQ x).length : ℚ) := by exact_mod_cast hn
  have hh0 : 0 ≤ (((sortQ x).length : ℚ) - 1) * np_clip p 50 (999/10) / 100 := by
    apply div_nonneg _ (by norm_num)
    apply mul_nonneg (by linarith) (by linarith)
  have hh1 : (((sortQ x).length : ℚ) - 1) * np_clip p 50 (999/10) / 100 ≤
      ((sortQ x).length : ℚ) - 1 := by
    rw [div_le_iff (by norm_num : (0:ℚ) < 100)]
    nlinarith
  have hfl0 : 0 ≤ ⌊(((sortQ x).length : ℚ) - 1) * np_clip p 50 (999/10) / 100⌋ :=
    Int.floor_nonneg.mpr hh0
  have hfl1 : ⌊(((sortQ x).length : ℚ) - 1) * np_clip p 50 (999/10) / 100⌋ ≤
      ((sortQ x).length : ℤ) - 1 := by
    have h1 := Int.floor_le_floor hh1
    have h2 : ⌊((sortQ x).length : ℚ) - 1⌋ = ((sortQ x).length : ℤ) - 1 := by
      rw [Int.floor_sub_one, Int.floor_natCast]
    rw [h2] at h1
    exact h1
  have hlo_lt : (⌊(((sortQ x).length : ℚ) - 1) * np_clip p 50 (999/10) / 100⌋).toNat <
      (sortQ x).length := by omega
  have hmhi_lt : min ((⌊(((sortQ x).length : ℚ) - 1) * np_clip p 50 (999/10) / 100⌋).toNat + 1)
      ((sortQ x).length - 1) < (sortQ x).length := by omega
  have hlomhi : (⌊(((sortQ x).length : ℚ) - 1) * np_clip p 50 (999/10) / 100⌋).toNat ≤
      min ((⌊(((sortQ x).length : ℚ) - 1) * np_clip p 50 (999/10) / 100⌋).toNat + 1)
        ((sortQ x).length - 1) := by omega
  have hmono := sorted_getD_mono hsorted hlomhi hmhi_lt
  have hcast : (((⌊(((sortQ x).length : ℚ) - 1) * np_clip p 50 (999/10) / 100⌋).toNat : ℚ)) =
      ((⌊(((sortQ x).length : ℚ) - 1) * np_clip p 50 (999/10) / 100⌋ : ℤ) : ℚ) := by
    exact_mod_cast congrArg (fun z : ℤ => (z : ℚ)) (Int.toNat_of_nonneg hfl0)
  have hg0 : 0 ≤ (((sortQ x).length : ℚ) - 1) * np_clip p 50 (999/10) / 100 -
      ((⌊(((sortQ x).length : ℚ) - 1) * np_clip p 50 (999/10) / 100⌋).toNat : ℚ) := by
    rw [hcast]
    have := Int.floor_le ((((sortQ x).length : ℚ) - 1) * np_clip p 50 (999/10) / 100)
    linarith
  have hg1 : (((sortQ x).length : ℚ) - 1) * np_clip p 50 (999/10) / 100 -
      ((⌊(((sortQ x).length : ℚ) - 1) * np_clip p 50 (999/10) / 100⌋).toNat : ℚ) ≤ 1 := by
    rw [hcast]
    have := Int.lt_floor_add_one ((((sortQ x).length : ℚ) - 1) * np_clip p 50 (999/10) / 100)
    push_cast
    linarith
  have hpl : percentile_linear x (np_clip p 50 (999/10)) =
      (sortQ x).getD (⌊(((sortQ x).length : ℚ) - 1) * np_clip p 50 (999/10) / 100⌋).toNat 0 +
        ((((sortQ x).length : ℚ) - 1) * np_clip p 50 (999/10) / 100 -
          ((⌊(((sortQ x).length : ℚ) - 1) * np_clip p 50 (999/10) / 100⌋).toNat : ℚ)) *
        ((sortQ x).getD
          (min ((⌊(((sortQ x).length : ℚ) - 1) * np_clip p 50 (999/10) / 100⌋).toNat + 1)
            ((sortQ x).length - 1)) 0 -
         (sortQ x).getD (⌊(((sortQ x).length : ℚ) - 1) * np_clip p 50 (999/10) / 100⌋).toNat 0)
      := rfl
  constructor
  · refine ⟨(sortQ x).getD (⌊(((sortQ x).length : ℚ) - 1) * np_clip p 50 (999/10) / 100⌋).toNat 0,
      mem_sortQ.mp (getD_mem_of_lt hlo_lt), ?_⟩
    rw [hpl]
    nlinarith
  · refine ⟨(sortQ x).getD
      (min ((⌊(((sortQ x).length : ℚ) - 1) * np_clip p 50 (999/10) / 100⌋).toNat + 1)
        ((sortQ x).length - 1)) 0,
      mem_sortQ.mp (getD_mem_of_lt hmhi_lt), ?_⟩
    rw [hpl]
    nlinarith

/-- Witness for C9 at `x = [1, 5]`, `p = 200`. -/
theorem auto_threshold_within_range_witness :
    ([1, 5] : List ℚ) ≠ [] ∧
    (auto_threshold [1, 5] 200 = .ok (percentile_linear [1, 5] (np_clip 200 50 (999/10))) ∧
      (∃ a ∈ ([1, 5] : List ℚ), a ≤ percentile_linear [1, 5] (np_clip 200 50 (999/10))) ∧
      (∃ b ∈ ([1, 5] : List ℚ), percentile_linear [1, 5] (np_clip 200 50 (999/10)) ≤ b)) :=
  ⟨by decide, auto_threshold_within_range [1, 5] 200 (by decide)⟩

/-! ### C2: moving_average edge behavior is zero-padded convolution -/

lemma list_range_map_sum (f : ℕ → ℚ) :
    ∀ n : ℕ, ((List.range n).map f).sum = ∑ j in Finset.range n, f j
  | 0 => by simp
  | n + 1 => by
    rw [List.range_succ, List.map_append, List.sum_append, Finset.sum_range_succ,
      list_range_map_sum f n]
    simp

lemma getD_map_range (f : ℕ → ℚ) {i n : ℕ} (h : i < n) :
    ((List.range n).map f).getD i 0 = f i := by
  rw [List.getD_eq_getElem?_getD, List.getElem?_map, List.getElem?_range h]
  rfl

lemma getD_replicate_ite (c : ℚ) (n j : ℕ) :
    (List.replicate n c).getD j 0 = if j < n then c else 0 := by
  rw [List.getD_eq_getElem?_getD, List.getElem?_replicate]
  split <;> rfl

lemma convolve_full_const_entry (c : ℚ) (n w k : ℕ) (hk : k < n + w - 1) :
    (convolve_full (List.replicate n c) (List.replicate w (1 / (w : ℚ)))).getD k 0 =
      c * (1 / (w : ℚ)) *
        (((Finset.range n).filter (fun j => j ≤ k ∧ k - j < w)).card : ℚ) := by
  unfold convolve_full
  rw [List.length_replicate, List.length_replicate, getD_map_range _ hk, list_range_map_sum]
  have hterm : ∀ j ∈ Finset.range n,
      (if j ≤ k then
        (List.replicate n c).getD j 0 * (List.replicate w (1/(w:ℚ))).getD (k - j) 0 else 0) =
      (if j ≤ k ∧ k - j < w then c * (1/(w:ℚ)) else 0) := by
    intro j hj
    have hjn : j < n := Finset.mem_range.mp hj
    rw [getD_replicate_ite, getD_replicate_ite, if_pos hjn]
    by_cases h1 : j ≤ k
    · by_cases h2 : k - j < w
      · rw [if_pos h1, if_pos h2, if_pos ⟨h1, h2⟩]
      · rw [if_pos h1, if_neg h2, if_neg (fun hc => h2 hc.2), mul_zero]
    · rw [if_neg h1, if_neg (fun hc => h1 hc.1)]
  rw [Finset.sum_congr rfl hterm, ← Finset.sum_filter, Finset.sum_const, nsmul_eq_mul, mul_comm]

lemma card_window_interior {n w k : ℕ} (hw : 1 ≤ w) (hk1 : w - 1 ≤ k) (hk2 : k ≤ n - 1)
    (hn : 1 ≤ n) :
    ((Finset.range n).filter (fun j => j ≤ k ∧ k - j < w)).card = w := by
  have hset : (Finset.range n).filter (fun j => j ≤ k ∧ k - j < w) = Finset.Icc (k + 1 - w) k := by
    ext j
    simp only [Finset.mem_filter, Finset.mem_range, Finset.mem_Icc]
    omega
  rw [hset, Nat.card_Icc]
  omega

lemma card_window_edge {n w k : ℕ} (hkw : k < w) (hkn : k < n) :
    ((Finset.range n).filter (fun j => j ≤ k ∧ k - j < w)).card = k + 1 := by
  have hset : (Finset.range n).filter (fun j => j ≤ k ∧ k - j < w) = Finset.range (k + 1) := by
    ext j
    simp only [Finset.mem_filter, Finset.mem_range]
    omega
  rw [hset, Finset.card_range]

lemma convolve_same_const_length (c : ℚ) (n w : ℕ) (hw : w ≤ n) :
    (convolve_same (List.replicate n c) (List.replicate w (1/(w:ℚ)))).length = n := by
  unfold convolve_same
  rw [List.length_map, List.length_range, List.length_replicate, List.length_replicate,
    Nat.max_eq_left hw]

lemma convolve_same_const_entry (c : ℚ) (n w i : ℕ) (hw : w ≤ n) (hi : i < n) :
    (convolve_same (List.replicate n c) (List.replicate w (1/(w:ℚ)))).getD i 0 =
      (convolve_full (List.replicate n c) (List.replicate w (1/(w:ℚ)))).getD
        (i + (w - 1) / 2) 0 := by
  unfold convolve_same
  rw [List.length_replicate, List.length_replicate, Nat.max_eq_left hw, Nat.min_eq_right hw,
    getD_map_range _ hi]

/-- C2 counterexample: the claim's truncated-mean edge behavior would give
`moving_average [1,1,1] 3 = [1, 1, 1]` (a constant series preserved at the
edges); the code's zero-padded `np.convolve` gives `[2/3, 1, 2/3]`. -/
theorem moving_average_edge_counterexample :
    moving_average ([1, 1, 1] : List ℚ) 3 ≠ .ok [1, 1, 1] ∧
    moving_average ([1, 1, 1] : List ℚ) 3 = .ok [2/3, 1, 2/3] := by
  have heq : moving_average ([1, 1, 1] : List ℚ) 3 = .ok [2/3, 1, 2/3] := by
    with_unfolding_all rfl
  refine ⟨fun h => ?_, heq⟩
  rw [heq] at h
  injection h with h'
  injection h' with h1 _
  norm_num at h1

/-- C2 amended: for `2 ≤ win ≤ n`, smoothing the constant series `c` keeps
the same length and returns `c` at interior indices, but edge samples are
zero-padded: index `0` gets `c * ((win-1)/2 + 1) / win`, strictly less than
`c` for positive `c` — the edge behavior of `np.convolve(..., "same")`,
not a truncated partial-window mean. -/
theorem moving_average_zero_pads_constant (c : ℚ) (n : ℕ) (win : ℤ) (h2 : 2 ≤ win)
    (hn : win.toNat ≤ n) (hc : 0 < c) :
    ∃ y, moving_average (List.replicate n c) win = .ok y ∧
      y.length = n ∧
      (∀ i, win.toNat - 1 - (win.toNat - 1) / 2 ≤ i → i + (win.toNat - 1) / 2 ≤ n - 1 →
        y.getD i 0 = c) ∧
      y.getD 0 0 = c * (((win.toNat - 1) / 2 + 1 : ℕ) : ℚ) / (win : ℚ) ∧
      y.getD 0 0 < c := by
  have h0w : (0 : ℤ) ≤ win := by omega
  have hwn : 2 ≤ win.toNat := by omega
  have hq : ((win.toNat : ℚ)) = ((win : ℤ) : ℚ) := by exact_mod_cast Int.toNat_of_nonneg h0w
  have hw0 : (0 : ℚ) < (win.toNat : ℚ) := by exact_mod_cast (by omega : 0 < win.toNat)
  have hne : (List.replicate n c).isEmpty = false := by
    cases n with
    | zero => exact absurd hn (by omega)
    | succ m => rfl
  have hker : (1 : ℚ) / ((win : ℤ) : ℚ) = 1 / ((win.toNat : ℕ) : ℚ) := by rw [hq]
  refine ⟨convolve_same (List.replicate n c)
    (List.replicate win.toNat (1 / ((win.toNat : ℕ) : ℚ))), ?_, ?_, ?_, ?_, ?_⟩
  · rw [moving_average, if_neg (by omega : ¬ win ≤ 1), hne, hker]
    rfl
  · exact convolve_same_const_length c n win.toNat hn
  · intro i hi1 hi2
    have hin : i < n := by omega
    rw [convolve_same_const_entry c n win.toNat i hn hin,
      convolve_full_const_entry c n win.toNat _ (by omega),
      card_window_interior (by omega) (by omega) (by omega) (by omega)]
    rw [one_div, mul_assoc, inv_mul_cancel₀ (ne_of_gt hw0), mul_one]
  · have h0n : 0 < n := by omega
    rw [convolve_same_const_entry c n win.toNat 0 hn h0n, Nat.zero_add,
      convolve_full_const_entry c n win.toNat _ (by omega),
      card_window_edge (by omega) (by omega), ← hq]
    push_cast
    ring
  · have h0n : 0 < n := by omega
    rw [convolve_same_const_entry c n win.toNat 0 hn h0n, Nat.zero_add,
      convolve_full_const_entry c n win.toNat _ (by omega),
      card_window_edge (by omega) (by omega)]
    have hofflt : ((win.toNat - 1) / 2 + 1 : ℕ) < win.toNat := by omega
    have hofflt' : (((win.toNat - 1) / 2 + 1 : ℕ) : ℚ) < (win.toNat : ℚ) := by
      exact_mod_cast hofflt
    have hcw : c * (1 / (win.toNat : ℚ)) * (((win.toNat - 1) / 2 + 1 : ℕ) : ℚ) < c := by
      rw [one_div, mul_assoc]
      have : (win.toNat : ℚ)⁻¹ * (((win.toNat - 1) / 2 + 1 : ℕ) : ℚ) < 1 := by
        rw [inv_mul_lt_iff hw0, mul_one]
        exact hofflt'
      nlinarith
    exact hcw

/-- Witness for the amended C2 at `c = 1`, `n = 3`, `win = 3`. -/
theorem moving_average_zero_pads_constant_witness :
    (2 : ℤ) ≤ 3 ∧ (3 : ℤ).toNat ≤ 3 ∧ (0 : ℚ) < 1 ∧
    (∃ y, moving_average (List.replicate 3 (1 : ℚ)) 3 = .ok y ∧
      y.length = 3 ∧
      (∀ i, (3 : ℤ).toNat - 1 - ((3 : ℤ).toNat - 1) / 2 ≤ i →
        i + ((3 : ℤ).toNat - 1) / 2 ≤ 3 - 1 → y.getD i 0 = 1) ∧
      y.getD 0 0 = 1 * ((((3 : ℤ).toNat - 1) / 2 + 1 : ℕ) : ℚ) / ((3 : ℤ) : ℚ) ∧
      y.getD 0 0 < 1) :=
  ⟨by decide, by decide, by decide,
    moving_average_zero_pads_constant 1 3 3 (by decide) (by decide) (by decide)⟩

/-! ### C1 and C10: structure of the boundary list returned by
detect_shot_boundaries -/

lemma merge_loop_sublist (g : ℚ) : ∀ (last : ℚ) (l : List ℚ), (merge_loop g last l).Sublist l
  | _, [] => List.Sublist.refl []
  | last, b :: rest => by
    unfold merge_loop
    split
    · exact List.Sublist.cons₂ b (merge_loop_sublist g b rest)
    · exact List.Sublist.cons b (merge_loop_sublist g last rest)

lemma filter_loop_sublist (dur m : ℚ) :
    ∀ (prev : ℚ) (l : List ℚ), (filter_loop dur m prev l).Sublist l
  | _, [] => List.Sublist.refl []
  | prev, [c] => by
    unfold filter_loop
    split
    · exact List.Sublist.refl [c]
    · split
      · exact List.Sublist.refl [c]
      · exact List.nil_sublist [c]
  | prev, c :: next :: rest => by
    unfold filter_loop
    split
    · exact List.Sublist.cons₂ c (filter_loop_sublist dur m c (next :: rest))
    · exact List.Sublist.cons c (filter_loop_sublist dur m prev (next :: rest))

lemma merge_close_boundaries_props {l : List ℚ} (hs : l.Sorted (· ≤ ·)) (g : ℚ) :
    (merge_close_boundaries l g).Sublist l ∧ (merge_close_boundaries l g).head? = l.head? := by
  unfold merge_close_boundaries
  split
  · exact ⟨List.Sublist.refl l, rfl⟩
  · rw [sortQ_eq_self hs]
    cases l with
    | nil => exact ⟨List.Sublist.refl _, rfl⟩
    | cons x rest =>
      exact ⟨List.Sublist.cons₂ x (merge_loop_sublist g x rest), rfl⟩

lemma filter_short_shots_props {l : List ℚ} (hs : l.Sorted (· ≤ ·)) (dur m : ℚ) :
    (filter_short_shots l dur m).Sublist l ∧ (filter_short_shots l dur m).head? = l.head? := by
  unfold filter_short_shots
  split
  · exact ⟨List.Sublist.refl l, rfl⟩
  · rw [sortQ_eq_self hs]
    cases l with
    | nil => exact ⟨List.Sublist.refl _, rfl⟩
    | cons x rest =>
      exact ⟨List.Sublist.cons₂ x (filter_loop_sublist dur m x rest), rfl⟩

lemma lookup_times_mem {dist_times : List ℚ} :
    ∀ (peaks : List ℕ) (out : List ℚ), lookup_times dist_times peaks = .ok out →
      ∀ t ∈ out, t ∈ dist_times
  | [], out, h => by
    unfold lookup_times at h
    injection h with h'
    intro t ht
    rw [← h'] at ht
    cases ht
  | i :: rest, out, h => by
    unfold lookup_times at h
    cases hi : dist_times[i]? with
    | none =>
      rw [hi] at h
      cases h
    | some u =>
      rw [hi] at h
      cases hr : lookup_times dist_times rest with
      | error e =>
        rw [hr] at h
        cases h
      | ok ts =>
        rw [hr] at h
        injection h with h'
        intro t ht
        rw [← h'] at ht
        rcases List.mem_cons.mp ht with h'' | h''
        · rw [h'']
          exact List.getElem?_mem hi
        · exact lookup_times_mem rest ts hr t h''

lemma apply_duration_filter_props {l : List ℚ} (hs : l.Sorted (· ≤ ·)) (vd : Option ℚ)
    (m : ℚ) :
    (apply_duration_filter l vd m).Sublist l ∧ (apply_duration_filter l vd m).head? = l.head? := by
  cases vd with
  | none => exact ⟨List.Sublist.refl l, rfl⟩
  | some d =>
    show (if 0 < d then filter_short_shots l d m else l).Sublist l ∧
      (if 0 < d then filter_short_shots l d m else l).head? = l.head?
    by_cases hd : 0 < d
    · rw [if_pos hd]
      exact filter_short_shots_props hs d m
    · rw [if_neg hd]
      exact ⟨List.Sublist.refl l, rfl⟩

lemma detect_ok_structure {dist_times distances : List ℚ} {params : ShotDetectionParams}
    {vd : Option ℚ} {s : List ℚ} {thr : ℚ} {bl : List ℚ}
    (h : detect_shot_boundaries dist_times distances params vd = .ok (s, thr, bl)) :
    ∃ pts : List ℚ, (∀ t ∈ pts, t ∈ dist_times) ∧
      bl.Sublist (sortQ (((0 : ℚ) :: pts).dedup)) ∧
      bl.head? = (sortQ (((0 : ℚ) :: pts).dedup)).head? := by
  unfold detect_shot_boundaries at h
  split at h
  · exact Except.noConfusion h
  · split at h
    · exact Except.noConfusion h
    · split at h
      · exact Except.noConfusion h
      · split at h
        · exact Except.noConfusion h
        · rename_i smoothed hma thr' hthr pts hpk
          injection h with h'
          injection h' with h1 h2
          injection h2 with h3 h4
          refine ⟨pts, lookup_times_mem _ pts hpk, ?_⟩
          have hsorted : (sortQ (((0 : ℚ) :: pts).dedup)).Sorted (· ≤ ·) := sortQ_sorted _
          have hmerge := merge_close_boundaries_props hsorted params.min_gap_sec
          have hmsorted : (merge_close_boundaries (sortQ (((0 : ℚ) :: pts).dedup))
              params.min_gap_sec).Sorted (· ≤ ·) := hsorted.sublist hmerge.1
          have happ := apply_duration_filter_props hmsorted vd params.min_shot_duration_sec
          rw [← h4]
          exact ⟨happ.1.trans hmerge.1, happ.2.trans hmerge.2⟩

/-- C1: whenever `detect_shot_boundaries` returns (given equal-length inputs
with non-negative timestamps), the boundary list is sorted strictly
ascending, contains no duplicates, and its first element is `0.0`. -/
theorem detect_shot_boundaries_sorted_head (dist_times distances : List ℚ)
    (params : ShotDetectionParams) (vd : Option ℚ) (s : List ℚ) (thr : ℚ) (bl : List ℚ)
    (hlen : dist_times.length = distances.length) (hnn : ∀ t ∈ dist_times, 0 ≤ t)
    (h : detect_shot_boundaries dist_times distances params vd = .ok (s, thr, bl)) :
    bl.Sorted (· < ·) ∧ bl.Nodup ∧ bl.head? = some 0 := by
  obtain ⟨pts, hpts, hsub, hhead⟩ := detect_ok_structure h
  have hble : (sortQ (((0 : ℚ) :: pts).dedup)).Sorted (· ≤ ·) := sortQ_sorted _
  have hbnd : (sortQ (((0 : ℚ) :: pts).dedup)).Nodup :=
    (sortQ_perm _).nodup_iff.mpr (List.nodup_dedup _)
  have hblt : (sortQ (((0 : ℚ) :: pts).dedup)).Sorted (· < ·) :=
    sorted_lt_of_sorted_le_nodup hble hbnd
  have hsorted : bl.Sorted (· < ·) := hblt.sublist hsub
  have hmem0 : (0 : ℚ) ∈ sortQ (((0 : ℚ) :: pts).dedup) :=
    mem_sortQ.mpr (List.mem_dedup.mpr (List.mem_cons_self 0 pts))
  have hnn' : ∀ y ∈ sortQ (((0 : ℚ) :: pts).dedup), 0 ≤ y := by
    intro y hy
    rcases List.mem_cons.mp (List.mem_dedup.mp (mem_sortQ.mp hy)) with h' | h'
    · rw [h']
    · exact hnn y (hpts y h')
  exact ⟨hsorted, hsorted.imp ne_of_lt,
    hhead.trans (head_eq_zero_of_sorted hble hmem0 hnn')⟩

/-- Witness for C1 at `dist_times = [0, 1, 2]`, `distances = [0, 0, 0]`,
default parameters, no video duration. -/
theorem detect_shot_boundaries_sorted_head_witness :
    ([0, 1, 2] : List ℚ).length = ([0, 0, 0] : List ℚ).length ∧
    (∀ t ∈ ([0, 1, 2] : List ℚ), 0 ≤ t) ∧
    (([0] : List ℚ).Sorted (· < ·) ∧ ([0] : List ℚ).Nodup ∧
      ([0] : List ℚ).head? = some 0) :=
  ⟨by decide, by decide,
    detect_shot_boundaries_sorted_head [0, 1, 2] [0, 0, 0] defaultParams none
      [0, 0, 0, 0, 0, 0, 0] 0 [0] (by decide) (by decide) (by with_unfolding_all rfl)⟩

/-- C10: every boundary returned by `detect_shot_boundaries` other than the
leading `0.0` is one of the input timestamps — the post-processing passes
only drop boundaries, never create or alter values. -/
theorem detect_shot_boundaries_snap_to_times (dist_times distances : List ℚ)
    (params : ShotDetectionParams) (vd : Option ℚ) (s : List ℚ) (thr : ℚ) (bl : List ℚ)
    (hlen : dist_times.length = distances.length) (hnn : ∀ t ∈ dist_times, 0 ≤ t)
    (h : detect_shot_boundaries dist_times distances params vd = .ok (s, thr, bl)) :
    bl.head? = some 0 ∧ ∀ x ∈ bl, x ≠ 0 → x ∈ dist_times := by
  obtain ⟨pts, hpts, hsub, hhead⟩ := detect_ok_structure h
  have hble : (sortQ (((0 : ℚ) :: pts).dedup)).Sorted (· ≤ ·) := sortQ_sorted _
  have hmem0 : (0 : ℚ) ∈ sortQ (((0 : ℚ) :: pts).dedup) :=
    mem_sortQ.mpr (List.mem_dedup.mpr (List.mem_cons_self 0 pts))
  have hnn' : ∀ y ∈ sortQ (((0 : ℚ) :: pts).dedup), 0 ≤ y := by
    intro y hy
    rcases List.mem_cons.mp (List.mem_dedup.mp (mem_sortQ.mp hy)) with h' | h'
    · rw [h']
    · exact hnn y (hpts y h')
  refine ⟨hhead.trans (head_eq_zero_of_sorted hble hmem0 hnn'), ?_⟩
  intro x hx hx0
  have hx' : x ∈ sortQ (((0 : ℚ) :: pts).dedup) := hsub.subset hx
  rcases List.mem_cons.mp (List.mem_dedup.mp (mem_sortQ.mp hx')) with h' | h'
  · exact absurd h' hx0
  · exact hpts x h'

/-- Witness for C10 at `dist_times = [0, 1, 2]`, `distances = [0, 0, 0]`,
default parameters, no video duration. -/
theorem detect_shot_boundaries_snap_to_times_witness :
    ([0, 1, 2] : List ℚ).length = ([0, 0, 0] : List ℚ).length ∧
    (∀ t ∈ ([0, 1, 2] : List ℚ), 0 ≤ t) ∧
    (([0] : List ℚ).head? = some 0 ∧
      ∀ x ∈ ([0] : List ℚ), x ≠ 0 → x ∈ ([0, 1, 2] : List ℚ)) :=
  ⟨by decide, by decide,
    detect_shot_boundaries_snap_to_times [0, 1, 2] [0, 0, 0] defaultParams none
      [0, 0, 0, 0, 0, 0, 0] 0 [0] (by decide) (by decide) (by with_unfolding_all rfl)⟩

/-! ### C3: behavior of detect_shot_boundaries on fewer than 2 frames -/

lemma find_local_maxima_of_const {x : List ℚ} {v : ℚ}
    (hconst : ∀ i, i < x.length → x.getD i 0 = v) (thr : ℚ) :
    find_local_maxima x thr = [] := by
  unfold find_local_maxima
  rw [List.filter_eq_nil_iff]
  intro i hi hcontra
  simp only [Bool.and_eq_true, decide_eq_true_eq] at hcontra
  obtain ⟨⟨⟨⟨h0, h1⟩, h2⟩, h3⟩, h4⟩ := hcontra
  have hii : i < x.length := by omega
  have hprev : i - 1 < x.length := by omega
  rw [hconst i hii, hconst (i - 1) hprev] at h3
  exact absurd h3 (lt_irrefl v)

lemma convolve_same_single_length (d k : ℚ) (w : ℕ) (hw : 1 ≤ w) :
    (convolve_same [d] (List.replicate w k)).length = w := by
  unfold convolve_same
  rw [List.length_map, List.length_range, List.length_singleton, List.length_replicate,
    Nat.max_eq_right hw]

lemma convolve_same_single_entry (d k : ℚ) (w : ℕ) (hw : 1 ≤ w) {i : ℕ} (hi : i < w) :
    (convolve_same [d] (List.replicate w k)).getD i 0 = d * k := by
  unfold convolve_same convolve_full
  rw [List.length_singleton, List.length_replicate, Nat.max_eq_right hw, Nat.min_eq_left hw]
  rw [getD_map_range _ hi]
  have hfull : i + (1 - 1) / 2 < 1 + w - 1 := by omega
  rw [getD_map_range _ hfull]
  have : i + (1 - 1) / 2 = i := by omega
  rw [this]
  simp only [List.range_succ, List.range_zero, List.nil_append, List.map_cons, List.map_nil,
    List.sum_cons, List.sum_nil]
  rw [if_pos (Nat.zero_le i)]
  rw [getD_replicate_ite]
  have : i - 0 = i := by omega
  rw [this, if_pos hi]
  show d * k + 0 = d * k
  ring

/-- C3 counterexample: on zero frames (empty `dist_times` and `distances`),
`detect_shot_boundaries` with the default parameters does not return
`[0.0]` — it propagates the `ValueError` numpy raises when `np.convolve`
receives an empty array. -/
theorem detect_empty_input_raises :
    detect_shot_boundaries [] [] defaultParams none =
      .error "ValueError: v cannot be empty" := by
  with_unfolding_all rfl

lemma detect_with_const_smoothed (t d : ℚ) (params : ShotDetectionParams) (vd : Option ℚ)
    {smoothed : List ℚ} {v : ℚ}
    (hsm : moving_average [d] params.smooth_win = .ok smoothed)
    (hconst : ∀ i, i < smoothed.length → smoothed.getD i 0 = v)
    (hne : smoothed.isEmpty = false) :
    ∃ s thr, detect_shot_boundaries [t] [d] params vd = .ok (s, thr, [0]) := by
  refine ⟨smoothed,
    percentile_linear smoothed (np_clip params.threshold_percentile 50 (999/10)), ?_⟩
  have hthr : auto_threshold smoothed params.threshold_percentile =
      .ok (percentile_linear smoothed (np_clip params.threshold_percentile 50 (999/10))) := by
    rw [auto_threshold, np_percentile, hne]
    rfl
  have hpk : detect_peak_times [t] smoothed params
      (percentile_linear smoothed (np_clip params.threshold_percentile 50 (999/10))) =
      .ok [] := by
    unfold detect_peak_times
    rw [find_local_maxima_of_const hconst]
    rfl
  have happ : apply_duration_filter [0] vd params.min_shot_duration_sec = [0] := by
    cases vd with
    | none => rfl
    | some dd =>
      show (if 0 < dd then filter_short_shots [0] dd params.min_shot_duration_sec else [0])
        = [0]
      rw [show filter_short_shots [0] dd params.min_shot_duration_sec = [0] from rfl,
        ite_self]
  unfold detect_shot_boundaries
  rw [if_neg (by simp : ¬ ([t] : List ℚ).length ≠ ([d] : List ℚ).length)]
  rw [hsm]
  dsimp only
  rw [hthr]
  dsimp only
  rw [hpk]
  dsimp only
  rw [show merge_close_boundaries (sortQ (((0 : ℚ) :: ([] : List ℚ)).dedup))
    params.min_gap_sec = [0] from rfl]
  rw [happ]

/-- C3 amended: with exactly one frame (still fewer than 2),
`detect_shot_boundaries` does not throw for any parameters and returns a
boundary list of exactly `[0.0]`; with zero frames it instead propagates
numpy's `ValueError` (see the counterexample). -/
theorem detect_single_frame_returns_zero (t d : ℚ) (params : ShotDetectionParams)
    (vd : Option ℚ) :
    ∃ s thr, detect_shot_boundaries [t] [d] params vd = .ok (s, thr, [0]) := by
  by_cases hwin : params.smooth_win ≤ 1
  · have hsm : moving_average [d] params.smooth_win = .ok [d] := by
      rw [moving_average, if_pos hwin]
    refine detect_with_const_smoothed t d params vd (v := d) hsm ?_ rfl
    intro i hi
    have hi0 : i = 0 := by
      simp only [List.length_singleton] at hi
      omega
    subst hi0
    rfl
  · have hw1 : 1 ≤ params.smooth_win.toNat := by omega
    have hsm : moving_average [d] params.smooth_win =
        .ok (convolve_same [d]
          (List.replicate params.smooth_win.toNat (1 / (params.smooth_win : ℚ)))) := by
      rw [moving_average, if_neg hwin]
      rfl
    have hlen := convolve_same_single_length d (1 / (params.smooth_win : ℚ))
      params.smooth_win.toNat hw1
    refine detect_with_const_smoothed t d params vd
      (v := d * (1 / (params.smooth_win : ℚ))) hsm ?_ ?_
    · intro i hi
      rw [hlen] at hi
      exact convolve_same_single_entry d (1 / (params.smooth_win : ℚ))
        params.smooth_win.toNat hw1 hi
    · cases hcs : convolve_same [d]
        (List.replicate params.smooth_win.toNat (1 / (params.smooth_win : ℚ))) with
      | nil =>
        rw [hcs] at hlen
        simp at hlen
        omega
      | cons a l => rfl

end AVS
